import Mathlib

/-!
Shallow embedding of `src/main.cpp`: a PYTHIA + fastjet + ROOT program that
renders, for each generated event and each configured jet algorithm, one page
showing an energy-flow histogram (built from ghost particles clustered into
jets), particle markers, resonance labels and a legend.

Modelling conventions:
* `double` kinematics are modelled over `ℚ` (exact rational arithmetic in
  place of IEEE doubles).  The azimuth axis bound of the histogram is the
  double approximation of `π`; all grid geometry is therefore carried as an
  explicit `GridAxes` parameter, instantiated with concrete rationals in
  closed statements.
* PYTHIA, fastjet's clustering and ROOT's canvas are external collaborators.
  Clustering output is an arbitrary `List Jet`; rendering is modelled as the
  trace of drawing-relevant effects (`Eff`) the main loop issues.
* fastjet `PseudoJet`s carry no provenance; the embedding adds an inert
  `tag` field (never read by any modelled computation) so that statements
  can speak about hard-scatter / pileup / ghost origin.
-/

namespace JetVis

/-- Provenance of a particle in the clustering input pool.  This is a ghost
annotation of the embedding: the C++ `PseudoJet`s carry no such tag and no
modelled computation reads it. -/
inductive Provenance where
  | hardScatter
  | pileup
  | ghost
deriving DecidableEq

/-- A clustering-input particle (fastjet `PseudoJet`) reduced to the
kinematic quantities the program reads from it: `pt()`, `rap()` and
`phi_std()`, plus the inert provenance tag. -/
structure PJet where
  pt : ℚ
  rap : ℚ
  phi : ℚ
  tag : Provenance
deriving DecidableEq

/-- A jet as returned by `clustSeq.inclusive_jets(pTmin_jet)`: its aggregate
`pt()` and its constituent list. -/
structure Jet where
  pt : ℚ
  constituents : List PJet
deriving DecidableEq

/-- A PYTHIA event-record particle, reduced to the fields the program
reads: `isFinal()`, `isResonance()`, `status()`, `charge()`, `y()`, `pT()`
and the azimuth used when it is converted to a `PseudoJet`. -/
structure Ptcl where
  isFinal : Bool
  isResonance : Bool
  status : ℤ
  charge : ℤ
  y : ℚ
  pT : ℚ
  phi : ℚ
deriving DecidableEq

/-- `double pTmin_jet = 25;` -/
def pTmin_jet : ℚ := 25

/-- `double pTmin_hadron = 1;` -/
def pTmin_hadron : ℚ := 1

/-- `double yMax = 4;` -/
def yMax : ℚ := 4

/-- `double pTghost = 1e-100;` -/
def pTghost : ℚ := 1 / 10 ^ 100

/-- The numeric ghost test threshold in `if (c.pt() > 1e-50) continue;`. -/
def ghostThresh : ℚ := 1 / 10 ^ 50

/-- `int colHS = kBlack` (ROOT: `kBlack = 1`). -/
def colHS : ℤ := 1

/-- `colPos = kRed` (ROOT: `kRed = 632`). -/
def colPos : ℤ := 632

/-- `colNeg = kBlue` (ROOT: `kBlue = 600`). -/
def colNeg : ℤ := 600

/-- `int colNeut = kGreen + 3` (ROOT: `kGreen = 416`). -/
def colNeut : ℤ := 416 + 3

/-- `colPU = kGray + 1` (ROOT: `kGray = 920`). -/
def colPU : ℤ := 920 + 1

/-- `int NyBins = 400/2` -/
def NyBins : ℕ := 400 / 2

/-- `NphiBins = 314/2` -/
def NphiBins : ℕ := 314 / 2

/-- Axis geometry of the `pTflow` `TH2D`: x = rapidity, y = azimuth.  The
program instantiates `⟨-4, 4, NyBins, -phiMax, phiMax, NphiBins⟩` with
`phiMax` the double approximation of `π`; the embedding keeps the axes as a
parameter. -/
structure GridAxes where
  xlo : ℚ
  xhi : ℚ
  nx : ℕ
  ylo : ℚ
  yhi : ℚ
  ny : ℕ
deriving DecidableEq

/-- ROOT `TAxis::FindBin`: bin 0 is underflow, bin `n+1` overflow, and an
in-range coordinate `v` lands in bin `1 + ⌊n (v - lo) / (hi - lo)⌋`. -/
def binIdx (lo hi : ℚ) (n : ℕ) (v : ℚ) : ℤ :=
  if v < lo then 0
  else if hi ≤ v then (n : ℤ) + 1
  else ⌊(v - lo) * (n : ℚ) / (hi - lo)⌋ + 1

/-- ROOT `TAxis::GetBinCenter i = lo + (i - 1/2) · (hi - lo) / n`. -/
def binCenter (lo hi : ℚ) (n i : ℕ) : ℚ :=
  lo + (hi - lo) * (2 * (i : ℚ) - 1) / (2 * (n : ℚ))

/-- The `(x-bin, y-bin)` cell a fill at `(rap, phi)` lands in. -/
def cellOf (ax : GridAxes) (rap phi : ℚ) : ℤ × ℤ :=
  (binIdx ax.xlo ax.xhi ax.nx rap, binIdx ax.ylo ax.yhi ax.ny phi)

/-- One call `pTflow->Fill(rap, phi, w)` recorded by the flow accumulation
loop. -/
structure FillRec where
  rap : ℚ
  phi : ℚ
  w : ℚ
deriving DecidableEq

/-- The fills issued by the flow-accumulation loop for one jet set:
`for jet in jets: for c in jet.constituents(): if (c.pt() > 1e-50) continue;
pTflow->Fill(c.rap(), c.phi_std(), jet.pt());` -/
def fillsOf (jets : List Jet) : List FillRec :=
  jets.flatMap fun j =>
    (j.constituents.filter fun c => !decide (ghostThresh < c.pt)).map
      fun c => { rap := c.rap, phi := c.phi, w := j.pt }

/-- The fills of a fill list that land in a given cell. -/
def cellFills (ax : GridAxes) (fs : List FillRec) (cell : ℤ × ℤ) : List FillRec :=
  fs.filter fun f => decide (cellOf ax f.rap f.phi = cell)

/-- `TH2D` bin content after the given fills, starting from an empty
histogram: `Fill` adds its weight to the bin's current content. -/
def binContent (ax : GridAxes) (fs : List FillRec) (cell : ℤ × ℤ) : ℚ :=
  ((cellFills ax fs cell).map FillRec.w).sum

/-- `pTflow->Reset()`: discards whatever the previous algorithm iteration
left in the (shared) histogram object. -/
def resetGrid (_prev : List FillRec) : List FillRec := []

/-- The histogram state one algorithm iteration produces out of the state
`prev` left by the previous iteration: reset, then fill from this
iteration's jets. -/
def algGrid (prev : List FillRec) (jets : List Jet) : List FillRec :=
  resetGrid prev ++ fillsOf jets

/-- The ghost-particle construction of the source: for `iy = 1..nx` (outer)
and `iphi = 1..ny` (inner), `reset_momentum_PtYPhiM(pTghost, binCenter iy,
binCenter iphi, 0)` and push. -/
def sourceGhosts (ax : GridAxes) : List PJet :=
  (List.range ax.nx).flatMap fun iy =>
    (List.range ax.ny).map fun ip =>
      { pt := pTghost
        rap := binCenter ax.xlo ax.xhi ax.nx (iy + 1)
        phi := binCenter ax.ylo ax.yhi ax.ny (ip + 1)
        tag := Provenance.ghost }

/-- All grid-cell centers, row-major. -/
def cellCenters (ax : GridAxes) : List (ℚ × ℚ) :=
  ((List.range ax.nx).map fun iy => binCenter ax.xlo ax.xhi ax.nx (iy + 1)).flatMap
    fun yc =>
      ((List.range ax.ny).map fun ip => binCenter ax.ylo ax.yhi ax.ny (ip + 1)).map
        fun pc => (yc, pc)

/-- Ghost builder as worded by the spec: one probe per grid-cell center,
each with the same fixed negligible momentum magnitude. -/
def specGhostList (ax : GridAxes) : List PJet :=
  (cellCenters ax).map fun c =>
    { pt := pTghost, rap := c.1, phi := c.2, tag := Provenance.ghost }

/-- The resonance selection filling `VH`:
`if (p.isResonance() && p.status() == -62) VH.push_back(p);` -/
def vhOf (ps : List Ptcl) : List Ptcl :=
  ps.filter fun p => p.isResonance && decide (p.status = -62)

/-- The final-state selection filling `ptcls_hs` / `stbl_ptcls`. -/
def hsFinals (ps : List Ptcl) : List Ptcl :=
  ps.filter fun p => p.isFinal

/-- Conversion of an event-record particle to the `PseudoJet` pushed into
the clustering pool (`PseudoJet(p.px(), p.py(), p.pz(), p.e())`), carrying
the provenance annotation of the embedding. -/
def toPJ (t : Provenance) (p : Ptcl) : PJet :=
  { pt := p.pT, rap := p.y, phi := p.phi, tag := t }

/-- The pileup overlay loop: for each of the `n_inel` drawn interactions,
`if (!pythiaPU.next()) continue;` then append that interaction's final-state
particles.  A draw is `none` when `pythiaPU.next()` fails. -/
def puFinals (draws : List (Option (List Ptcl))) : List Ptcl :=
  draws.flatMap fun od =>
    match od with
    | none => []
    | some ps => ps.filter fun p => p.isFinal

/-- The pileup contribution to the clustering pool `stbl_ptcls`. -/
def puPool (draws : List (Option (List Ptcl))) : List PJet :=
  (puFinals draws).map (toPJ Provenance.pileup)

/-- Per-iteration input of the event loop: the hard-scatter draw
(`pythia.next()` plus the event record; `none` on failure) and the pileup
draws of that iteration. -/
structure EvIn where
  hs : Option (List Ptcl)
  pu : List (Option (List Ptcl))
deriving DecidableEq

/-- The clustering input pool `stbl_ptcls` as it stands when the algorithm
loop starts: hard-scatter finals, then the ghost grid, then pileup finals,
in push order. -/
def eventPool (ax : GridAxes) (inp : EvIn) : List PJet :=
  (hsFinals (inp.hs.getD [])).map (toPJ Provenance.hardScatter)
    ++ sourceGhosts ax ++ puPool inp.pu

/-- fastjet algorithm selector. -/
inductive AlgKind where
  | antikt
  | kt
  | cambridge
deriving DecidableEq

/-- `fastjet::JetDefinition(kind, R, fastjet::E_scheme, fastjet::Best)`,
reduced to the varying fields. -/
structure AlgDef where
  kind : AlgKind
  radius : ℚ
deriving DecidableEq

/-- `"Anti-#it{k_{t}} jets, #it{R} = " + std::to_string(R)` at `R = 0.4`
(`std::to_string(0.4) = "0.400000"`). -/
def labelAK : String := "Anti-#it\x7bk_\x7bt\x7d\x7d jets, #it\x7bR\x7d = 0.400000"

/-- `"#it{k_{t}} jets, #it{R} = " + std::to_string(R)` at `R = 0.4`. -/
def labelKT : String := "#it\x7bk_\x7bt\x7d\x7d jets, #it\x7bR\x7d = 0.400000"

/-- The literal Cambridge-Aachen label of the source. -/
def labelCA : String := "Cambridge-Aachen jets,  #it\x7bR\x7d = 0.4"

/-- The `jetDefs` insertions in source order, guarded by the three
algorithm switches. -/
def jetDefsList (doAK doK doCA : Bool) : List (String × AlgDef) :=
  (if doAK then [(labelAK, ⟨AlgKind.antikt, 2 / 5⟩)] else [])
    ++ (if doK then [(labelKT, ⟨AlgKind.kt, 2 / 5⟩)] else [])
    ++ (if doCA then [(labelCA, ⟨AlgKind.cambridge, 2 / 5⟩)] else [])

/-- The program's configuration: `doAntik_t = true, dok_t = true,
doCambridge_Aachen = false`. -/
def jetDefsProgram : List (String × AlgDef) := jetDefsList true true false

/-- `strcmp`-style strict order on character lists (byte order coincides
with scalar-value order on the ASCII labels involved). -/
def charsLt : List Char → List Char → Bool
  | [], [] => false
  | [], _ :: _ => true
  | _ :: _, [] => false
  | a :: as, b :: bs =>
      if a.toNat < b.toNat then true
      else if b.toNat < a.toNat then false
      else charsLt as bs

/-- The strict weak order `std::less<TString>` uses (`strcmp < 0`). -/
def keyLt (a b : String) : Bool := charsLt a.data b.data

/-- One `std::map` insertion `m[key] = value` viewed on the ordered entry
list: place the new entry at its key position, overwriting an equivalent
key. -/
def insertKey (x : String × AlgDef) : List (String × AlgDef) → List (String × AlgDef)
  | [] => [x]
  | y :: ys =>
      if keyLt x.1 y.1 then x :: y :: ys
      else if keyLt y.1 x.1 then y :: insertKey x ys
      else x :: ys

/-- The `std::map<TString, JetDefinition>` built from the insertion
sequence; its entry list (= iteration order) is sorted by `keyLt`. -/
def mapOfList (l : List (String × AlgDef)) : List (String × AlgDef) :=
  l.foldl (fun m x => insertKey x m) []

/-- One marker produced by `drawParticleMarker` / `drawMarker`. -/
structure Marker where
  style : ℕ
  col : ℤ
  size : ℚ
deriving DecidableEq

/-- The selection `std::abs(p.y()) < yMax && p.pT() > pTmin_hadron` shared
by both marker loops. -/
def qualifies (p : Ptcl) : Bool :=
  decide (|p.y| < yMax) && decide (pTmin_hadron < p.pT)

/-- The pileup marker loop body:
`drawParticleMarker(p, p.charge()?24:25, colPU, 0.4)` for particles passing
the cuts. -/
def markersPU (p : Ptcl) : List Marker :=
  if qualifies p then
    [{ style := if p.charge = 0 then 25 else 24, col := colPU, size := 2 / 5 }]
  else []

/-- The hard-scatter ("stable particles") marker loop body: one cross for
charged particles, a square plus a cross for neutral ones. -/
def markersHS (p : Ptcl) : List Marker :=
  if qualifies p then
    if 0 < p.charge then [{ style := 5, col := colPos, size := 4 / 5 }]
    else if p.charge < 0 then [{ style := 5, col := colNeg, size := 4 / 5 }]
    else
      [{ style := 21, col := colNeut, size := 2 / 5 },
       { style := 5, col := colNeut, size := 4 / 5 }]
  else []

/-- All particle markers of one page, in draw order (pileup loop first,
then the hard-scatter loop). -/
def pageMarkers (pu hs : List Ptcl) : List Marker :=
  pu.flatMap markersPU ++ hs.flatMap markersHS

/-- Drawing-relevant effects of the main loop, in program order. -/
inductive Eff where
  | clusterCall (ev : ℕ) (label : String) (pool : List PJet)
  | legendBox (ev : ℕ)
  | page (ev : ℕ) (label : String)
deriving DecidableEq

/-- The algorithm loop body for one event: cluster the (shared) pool, fill
and draw, draw the legend when `first` still holds, then print the page;
`first` is cleared after the first iteration. -/
def algSteps (i : ℕ) (pool : List PJet) :
    List (String × AlgDef) → Bool → List Eff
  | [], _ => []
  | (lab, _) :: rest, first =>
      Eff.clusterCall i lab pool ::
        ((if first then [Eff.legendBox i] else [])
          ++ Eff.page i lab :: algSteps i pool rest false)

/-- One event-loop iteration: skip on `pythia.next()` failure, classify,
skip unless exactly two `VH` resonances, else build the pool once and run
the algorithm loop over the `jetDefs` map with `first = true`. -/
def perEvent (ax : GridAxes) (defs : List (String × AlgDef)) (i : ℕ)
    (inp : EvIn) : List Eff :=
  match inp.hs with
  | none => []
  | some ps =>
      if (vhOf ps).length ≠ 2 then []
      else algSteps i (eventPool ax inp) (mapOfList defs) true

/-- The whole event loop, starting at loop index `i`. -/
def runTrace (ax : GridAxes) (defs : List (String × AlgDef)) :
    ℕ → List EvIn → List Eff
  | _, [] => []
  | i, inp :: rest =>
      perEvent ax defs i inp ++ runTrace ax defs (i + 1) rest

/-- Labels of the pages of a trace, in emission order. -/
def pageLabels (t : List Eff) : List String :=
  t.filterMap fun e =>
    match e with
    | Eff.page _ lab => some lab
    | _ => none

/-- Number of legend boxes drawn in a trace. -/
def legendCount (t : List Eff) : ℕ :=
  (t.filter fun e =>
    match e with
    | Eff.legendBox _ => true
    | _ => false).length

/-- The particle pools passed to the clustering engine, in call order. -/
def clusterPools (t : List Eff) : List (List PJet) :=
  t.filterMap fun e =>
    match e with
    | Eff.clusterCall _ _ pool => some pool
    | _ => none

/-- Pages of a trace as (event index, label) pairs. -/
def pagesOf (t : List Eff) : List (ℕ × String) :=
  t.filterMap fun e =>
    match e with
    | Eff.page i lab => some (i, lab)
    | _ => none

/-- Whether an event-loop iteration is a valid (page-producing) event. -/
def validEv (inp : EvIn) : Bool :=
  match inp.hs with
  | none => false
  | some ps => decide ((vhOf ps).length = 2)

/-- Number of valid events among the iterations. -/
def countValid (inps : List EvIn) : ℕ := inps.countP validEv

/-- An entry list sorted strictly ascending by `keyLt` (the `std::map`
entry-order invariant). -/
def entriesSorted (l : List (String × AlgDef)) : Prop :=
  l.Pairwise fun x y => keyLt x.1 y.1 = true

/-- Relabel the provenance annotation of every jet constituent.  Since the
tag is an annotation the C++ code does not have, no computation of the
program may depend on it. -/
def retagJets (f : Provenance → Provenance) (jets : List Jet) : List Jet :=
  jets.map fun j =>
    { j with constituents := j.constituents.map fun c => { c with tag := f c.tag } }

/-! ### Concrete fixtures used in closed statements -/

/-- A small grid instance (2 × 2 cells); the histogram's azimuth bound `π`
is irrational, so closed statements use small rational axes. -/
def tinyAx : GridAxes := ⟨-4, 4, 2, -3, 3, 2⟩

/-- A `VH`-selected resonance particle (`isResonance`, `status = -62`). -/
def resP : Ptcl := ⟨false, true, -62, 0, 0, 0, 0⟩

/-- A valid event-loop input: exactly two resonances, no pileup. -/
def vInp : EvIn := ⟨some [resP, resP], []⟩

/-- An invalid event-loop input: only one resonance. -/
def badInp : EvIn := ⟨some [resP], []⟩

/-- A qualifying neutral final-state hadron (`|y| < 4`, `pT = 2 > 1`). -/
def neutP : Ptcl := ⟨true, false, 1, 0, 0, 2, 0⟩

/-- A ghost constituent at the exact coordinate `(0, 0)`. -/
def gC : PJet := ⟨pTghost, 0, 0, Provenance.ghost⟩

/-- A jet of `pt = 30` owning the ghost at `(0, 0)`. -/
def jA : Jet := ⟨30, [gC]⟩

/-- A second jet, of `pt = 40`, owning a ghost at the same coordinate. -/
def jB : Jet := ⟨40, [gC]⟩

/-- Ghosts at three distinct cell centers of `tinyAx`. -/
def wG1 : PJet := ⟨pTghost, -2, -3/2, Provenance.ghost⟩

/-- Second cell-center ghost. -/
def wG2 : PJet := ⟨pTghost, -2, 3/2, Provenance.ghost⟩

/-- Third cell-center ghost. -/
def wG3 : PJet := ⟨pTghost, 2, -3/2, Provenance.ghost⟩

/-- A jet of `pt = 50` owning the three ghosts. -/
def wJet : Jet := ⟨50, [wG1, wG2, wG3]⟩

/-- A hard-scatter-tagged constituent whose `pt` happens to be `0`. -/
def realLow : PJet := ⟨0, 0, 0, Provenance.hardScatter⟩

/-- A jet set whose only constituent is a zero-`pt` real particle. -/
def cJets : List Jet := [⟨50, [realLow]⟩]

/-! ### `std::map` ordering lemmas -/

theorem charsLt_trans : ∀ {a b c : List Char},
    charsLt a b = true → charsLt b c = true → charsLt a c = true := by
  intro a
  induction a with
  | nil =>
      intro b c hab hbc
      cases b with
      | nil => simp [charsLt] at hab
      | cons y ys =>
          cases c with
          | nil => simp [charsLt] at hbc
          | cons z zs => simp [charsLt]
  | cons x xs ih =>
      intro b c hab hbc
      cases b with
      | nil => simp [charsLt] at hab
      | cons y ys =>
          cases c with
          | nil => simp [charsLt] at hbc
          | cons z zs =>
              simp only [charsLt] at hab hbc ⊢
              split at hab
              · rename_i hxy
                split at hbc
                · rename_i hyz
                  rw [if_pos (by omega)]
                · split at hbc
                  · simp at hbc
                  · rename_i hyz hzy
                    have : y.toNat = z.toNat := by omega
                    rw [if_pos (by omega)]
              · split at hab
                · simp at hab
                · rename_i hxy hyx
                  have hxyEq : x.toNat = y.toNat := by omega
                  split at hbc
                  · rename_i hyz
                    rw [if_pos (by omega)]
                  · split at hbc
                    · simp at hbc
                    · rename_i hyz hzy
                      have : y.toNat = z.toNat := by omega
                      rw [if_neg (by omega), if_neg (by omega)]
                      exact ih hab hbc

theorem charsLt_eq : ∀ {a b : List Char},
    charsLt a b = false → charsLt b a = false → a = b := by
  intro a
  induction a with
  | nil =>
      intro b hab _
      cases b with
      | nil => rfl
      | cons y ys => simp [charsLt] at hab
  | cons x xs ih =>
      intro b hab hba
      cases b with
      | nil => simp [charsLt] at hba
      | cons y ys =>
          simp only [charsLt] at hab hba
          split at hab
          · simp at hab
          · split at hab
            · rename_i hxy hyx
              rw [if_pos hyx] at hba
              simp at hba
            · rename_i hxy hyx
              have hx : x = y := Char.ext (UInt32.ext (by
                simp only [Char.toNat] at hxy hyx
                omega))
              rw [if_neg (by omega), if_neg (by omega)] at hba
              exact congrArg₂ _ hx (ih hab hba)

theorem keyLt_trans {a b c : String} (h1 : keyLt a b = true)
    (h2 : keyLt b c = true) : keyLt a c = true :=
  charsLt_trans h1 h2

theorem keyLt_eq {a b : String} (h1 : keyLt a b = false)
    (h2 : keyLt b a = false) : a = b := by
  cases a with
  | mk da =>
      cases b with
      | mk db => exact congrArg String.mk (charsLt_eq h1 h2)

theorem insertKey_ne_nil (x : String × AlgDef) (l : List (String × AlgDef)) :
    insertKey x l ≠ [] := by
  cases l with
  | nil => simp [insertKey]
  | cons y ys =>
      simp only [insertKey]
      split
      · simp
      · split <;> simp

theorem mem_insertKey {z x : String × AlgDef} {l : List (String × AlgDef)}
    (h : z ∈ insertKey x l) : z = x ∨ z ∈ l := by
  induction l with
  | nil => simp [insertKey] at h; exact Or.inl h
  | cons y ys ih =>
      simp only [insertKey] at h
      split at h
      · rcases List.mem_cons.mp h with h | h
        · exact Or.inl h
        · exact Or.inr h
      · split at h
        · rcases List.mem_cons.mp h with h | h
          · exact Or.inr (by simp [h])
          · rcases ih h with h | h
            · exact Or.inl h
            · exact Or.inr (List.mem_cons_of_mem _ h)
        · rcases List.mem_cons.mp h with h | h
          · exact Or.inl h
          · exact Or.inr (List.mem_cons_of_mem _ h)

theorem sorted_insertKey {x : String × AlgDef} {l : List (String × AlgDef)}
    (h : entriesSorted l) : entriesSorted (insertKey x l) := by
  induction l with
  | nil => simp [insertKey, entriesSorted]
  | cons y ys ih =>
      rcases List.pairwise_cons.mp h with ⟨hy, hs⟩
      simp only [insertKey]
      split
      · rename_i hxy
        exact List.pairwise_cons.mpr
          ⟨fun z hz => by
            rcases List.mem_cons.mp hz with h | h
            · exact h ▸ hxy
            · exact keyLt_trans hxy (hy z h), h⟩
      · split
        · rename_i hxy hyx
          refine List.pairwise_cons.mpr ⟨fun z hz => ?_, ih hs⟩
          rcases mem_insertKey hz with h | h
          · exact h ▸ hyx
          · exact hy z h
        · rename_i hxy hyx
          have : x.1 = y.1 :=
            keyLt_eq (Bool.not_eq_true _ ▸ hxy) (Bool.not_eq_true _ ▸ hyx)
          exact List.pairwise_cons.mpr ⟨fun z hz => this ▸ hy z hz, hs⟩

theorem perm_insertKey {x : String × AlgDef} {l : List (String × AlgDef)}
    (h : x.1 ∉ l.map Prod.fst) : (insertKey x l).Perm (x :: l) := by
  induction l with
  | nil => exact List.Perm.refl _
  | cons y ys ih =>
      simp only [List.map_cons, List.mem_cons] at h
      push_neg at h
      simp only [insertKey]
      split
      · exact List.Perm.refl _
      · split
        · exact ((ih h.2).cons y).trans (List.Perm.swap x y ys)
        · rename_i hxy hyx
          exact absurd
            (keyLt_eq (Bool.not_eq_true _ ▸ hxy) (Bool.not_eq_true _ ▸ hyx))
            h.1

theorem foldl_insertKey_ne_nil :
    ∀ (l acc : List (String × AlgDef)), acc ≠ [] →
      l.foldl (fun m x => insertKey x m) acc ≠ [] := by
  intro l
  induction l with
  | nil => intro acc h; simpa using h
  | cons x xs ih =>
      intro acc _
      exact ih (insertKey x acc) (insertKey_ne_nil x acc)

theorem mapOfList_ne_nil {l : List (String × AlgDef)} (h : l ≠ []) :
    mapOfList l ≠ [] := by
  cases l with
  | nil => exact absurd rfl h
  | cons x xs =>
      exact foldl_insertKey_ne_nil xs (insertKey x []) (insertKey_ne_nil x [])

theorem sorted_foldl_insertKey :
    ∀ (l acc : List (String × AlgDef)), entriesSorted acc →
      entriesSorted (l.foldl (fun m x => insertKey x m) acc) := by
  intro l
  induction l with
  | nil => intro acc h; simpa using h
  | cons x xs ih => intro acc h; exact ih (insertKey x acc) (sorted_insertKey h)

theorem mapOfList_sorted (l : List (String × AlgDef)) :
    entriesSorted (mapOfList l) :=
  sorted_foldl_insertKey l [] (List.Pairwise.nil)

theorem perm_foldl_insertKey :
    ∀ (l acc : List (String × AlgDef)),
      ((acc ++ l).map Prod.fst).Nodup →
      (l.foldl (fun m x => insertKey x m) acc).Perm (acc ++ l) := by
  intro l
  induction l with
  | nil => intro acc _; simp
  | cons x xs ih =>
      intro acc hnd
      have hperm1 : (acc ++ x :: xs).Perm (x :: (acc ++ xs)) :=
        List.perm_middle
      have hnd' : ((x :: (acc ++ xs)).map Prod.fst).Nodup :=
        (hperm1.map Prod.fst).nodup_iff.mp hnd
      have hxacc : x.1 ∉ acc.map Prod.fst := by
        have := (List.nodup_cons.mp hnd').1
        intro hmem
        exact this (by
          simp only [List.map_append, List.mem_append] at *
          exact Or.inl hmem)
      have hinsert : (insertKey x acc).Perm (x :: acc) := perm_insertKey hxacc
      have hnd'' : (((insertKey x acc) ++ xs).map Prod.fst).Nodup := by
        have hp : ((insertKey x acc) ++ xs).Perm ((x :: acc) ++ xs) :=
          hinsert.append_right xs
        have : ((x :: (acc ++ xs)).map Prod.fst).Nodup := hnd'
        exact ((hp.map Prod.fst).nodup_iff).mpr (by simp only [List.cons_append]; exact this)
      have hfold := ih (insertKey x acc) hnd''
      exact hfold.trans ((hinsert.append_right xs).trans List.perm_middle.symm)

theorem mapOfList_perm {l : List (String × AlgDef)}
    (h : (l.map Prod.fst).Nodup) : (mapOfList l).Perm l :=
  perm_foldl_insertKey l [] (by simpa using h)

/-! ### Trace lemmas -/

theorem pageLabels_append (t1 t2 : List Eff) :
    pageLabels (t1 ++ t2) = pageLabels t1 ++ pageLabels t2 := by
  simp [pageLabels, List.filterMap_append]

theorem legendCount_append (t1 t2 : List Eff) :
    legendCount (t1 ++ t2) = legendCount t1 + legendCount t2 := by
  simp [legendCount, List.filter_append]

theorem pageLabels_algSteps (i : ℕ) (pool : List PJet) :
    ∀ (l : List (String × AlgDef)) (first : Bool),
      pageLabels (algSteps i pool l first) = l.map Prod.fst := by
  intro l
  induction l with
  | nil => intro first; rfl
  | cons hd tl ih =>
      intro first
      obtain ⟨lab, d⟩ := hd
      have ihh := ih false
      simp only [pageLabels] at ihh ⊢
      cases first <;>
        simp [algSteps, List.filterMap_append, List.filterMap_cons, ihh]

theorem legendCount_algSteps_false (i : ℕ) (pool : List PJet) :
    ∀ (l : List (String × AlgDef)),
      legendCount (algSteps i pool l false) = 0 := by
  intro l
  induction l with
  | nil => rfl
  | cons hd tl ih =>
      obtain ⟨lab, d⟩ := hd
      simp only [legendCount] at ih ⊢
      simp [algSteps, List.filter_append, List.filter_cons, ih]

theorem legendCount_algSteps_true (i : ℕ) (pool : List PJet)
    (l : List (String × AlgDef)) :
    legendCount (algSteps i pool l true) = if l.isEmpty then 0 else 1 := by
  cases l with
  | nil => rfl
  | cons hd tl =>
      obtain ⟨lab, d⟩ := hd
      have h0 := legendCount_algSteps_false i pool tl
      simp only [legendCount] at h0 ⊢
      simp [algSteps, List.filter_append, List.filter_cons, h0]

theorem clusterPools_algSteps (i : ℕ) (pool : List PJet) :
    ∀ (l : List (String × AlgDef)) (first : Bool),
      clusterPools (algSteps i pool l first) = List.replicate l.length pool := by
  intro l
  induction l with
  | nil => intro first; rfl
  | cons hd tl ih =>
      intro first
      obtain ⟨lab, d⟩ := hd
      have ihh := ih false
      simp only [clusterPools] at ihh ⊢
      cases first <;>
        simp [algSteps, List.filterMap_append, List.filterMap_cons, ihh,
          List.replicate_succ]

theorem runTrace_append (ax : GridAxes) (defs : List (String × AlgDef))
    (l2 : List EvIn) :
    ∀ (l1 : List EvIn) (i : ℕ),
      runTrace ax defs i (l1 ++ l2)
        = runTrace ax defs i l1 ++ runTrace ax defs (i + l1.length) l2 := by
  intro l1
  induction l1 with
  | nil => intro i; simp [runTrace]
  | cons inp rest ih =>
      intro i
      have harith : i + 1 + rest.length = i + (rest.length + 1) := by omega
      simp only [List.cons_append, runTrace, List.length_cons,
        List.append_assoc, List.append_eq, ih (i + 1), harith]

theorem legendCount_perEvent (ax : GridAxes) {defs : List (String × AlgDef)}
    (hdefs : defs ≠ []) (i : ℕ) (inp : EvIn) :
    legendCount (perEvent ax defs i inp) = if validEv inp then 1 else 0 := by
  cases h : inp.hs with
  | none => simp [perEvent, validEv, h, legendCount]
  | some ps =>
      by_cases h2 : (vhOf ps).length = 2
      · have hne : (mapOfList defs).isEmpty = false := by
          cases hm : mapOfList defs with
          | nil => exact absurd hm (mapOfList_ne_nil hdefs)
          | cons a l => rfl
        simp [perEvent, validEv, h, h2, legendCount_algSteps_true, hne]
      · simp [perEvent, validEv, h, h2, legendCount]

theorem legendCount_runTrace (ax : GridAxes) {defs : List (String × AlgDef)}
    (hdefs : defs ≠ []) :
    ∀ (inps : List EvIn) (i : ℕ),
      legendCount (runTrace ax defs i inps) = countValid inps := by
  intro inps
  induction inps with
  | nil => intro i; rfl
  | cons inp rest ih =>
      intro i
      simp only [runTrace, legendCount_append, ih (i + 1), countValid,
        List.countP_cons]
      rw [legendCount_perEvent ax hdefs]
      cases h : validEv inp
      · simp [h]
      · simp [h]
        omega

/-! ### Flow, pileup and marker lemmas -/

theorem sum_map_const_q {α : Type} (l : List α) (a : ℚ) :
    (l.map fun _ => a).sum = (l.length : ℚ) * a := by
  induction l with
  | nil => simp
  | cons x xs ih =>
      simp [ih]
      ring

theorem fillsOf_cons (j : Jet) (js : List Jet) :
    fillsOf (j :: js)
      = (j.constituents.filter fun c => !decide (ghostThresh < c.pt)).map
          (fun c => { rap := c.rap, phi := c.phi, w := j.pt })
        ++ fillsOf js := by
  simp [fillsOf]

theorem binContent_append (ax : GridAxes) (fs1 fs2 : List FillRec)
    (cell : ℤ × ℤ) :
    binContent ax (fs1 ++ fs2) cell
      = binContent ax fs1 cell + binContent ax fs2 cell := by
  simp [binContent, cellFills, List.filter_append]

-- per-jet contribution at one cell
theorem binContent_jet (ax : GridAxes) (j : Jet) (cell : ℤ × ℤ) :
    binContent ax
        ((j.constituents.filter fun c => !decide (ghostThresh < c.pt)).map
          (fun c => { rap := c.rap, phi := c.phi, w := j.pt }))
        cell
      = ((j.constituents.filter fun c =>
            (!decide (ghostThresh < c.pt)
              && decide (cellOf ax c.rap c.phi = cell))).length : ℚ) * j.pt := by
  simp only [binContent, cellFills]
  rw [List.filter_map, List.filter_filter, List.map_map]
  have hw : (FillRec.w ∘ fun c : PJet =>
      ({ rap := c.rap, phi := c.phi, w := j.pt } : FillRec)) = fun _ => j.pt := rfl
  rw [hw, sum_map_const_q]
  congr 2
  rw [List.filter_congr (q := fun c : PJet =>
    !decide (ghostThresh < c.pt) && decide (cellOf ax c.rap c.phi = cell))]
  intro c _
  simp [Function.comp, Bool.and_comm]

theorem mem_fillsOf {f : FillRec} {jets : List Jet} (h : f ∈ fillsOf jets) :
    ∃ j ∈ jets, ∃ c ∈ j.constituents,
      ¬ ghostThresh < c.pt ∧ f = { rap := c.rap, phi := c.phi, w := j.pt } := by
  simp only [fillsOf, List.mem_flatMap, List.mem_map, List.mem_filter] at h
  obtain ⟨j, hj, c, ⟨hc, hpt⟩, hf⟩ := h
  refine ⟨j, hj, c, hc, ?_, hf.symm⟩
  simpa using hpt

theorem binContent_eq_sum_cellFills (ax : GridAxes) (fs : List FillRec)
    (cell : ℤ × ℤ) :
    binContent ax fs cell = ((cellFills ax fs cell).map FillRec.w).sum := rfl

theorem mem_cellFills {f : FillRec} {ax : GridAxes} {fs : List FillRec}
    {cell : ℤ × ℤ} (h : f ∈ cellFills ax fs cell) :
    f ∈ fs ∧ cellOf ax f.rap f.phi = cell := by
  simpa [cellFills] using (List.mem_filter.mp h)

theorem puFinals_append (d1 d2 : List (Option (List Ptcl))) :
    puFinals (d1 ++ d2) = puFinals d1 ++ puFinals d2 := by
  simp [puFinals]

theorem puFinals_none (d1 d2 : List (Option (List Ptcl))) :
    puFinals (d1 ++ none :: d2) = puFinals (d1 ++ d2) := by
  simp [puFinals]

theorem puFinals_eq_reduceOption (draws : List (Option (List Ptcl))) :
    puFinals draws
      = draws.reduceOption.flatMap fun ps => ps.filter fun p => p.isFinal := by
  induction draws with
  | nil => rfl
  | cons od rest ih =>
      cases od <;> simp [puFinals, List.reduceOption_cons_of_some,
        List.reduceOption_cons_of_none, ih] <;> simp [puFinals] at ih <;>
        exact ih

theorem reduceOption_length_add_count (draws : List (Option (List Ptcl))) :
    draws.reduceOption.length + draws.count none = draws.length := by
  induction draws with
  | nil => rfl
  | cons od rest ih =>
      cases od <;>
        simp [List.reduceOption_cons_of_some, List.reduceOption_cons_of_none,
          List.count_cons, ih] <;> omega

theorem markersPU_length (p : Ptcl) :
    (markersPU p).length = if qualifies p then 1 else 0 := by
  unfold markersPU
  cases h : qualifies p <;> simp [h]

theorem markersHS_length (p : Ptcl) :
    (markersHS p).length
      = if qualifies p then (if p.charge = 0 then 2 else 1) else 0 := by
  unfold markersHS
  cases h : qualifies p
  · simp [h]
  · simp only [h, if_true]
    by_cases h1 : 0 < p.charge
    · rw [if_pos h1, if_neg (by omega)]
      rfl
    · by_cases h2 : p.charge < 0
      · rw [if_neg h1, if_pos h2, if_neg (by omega)]
        rfl
      · rw [if_neg h1, if_neg h2, if_pos (by omega)]
        rfl

theorem flatMap_markersPU_length (pu : List Ptcl) :
    (pu.flatMap markersPU).length = pu.countP qualifies := by
  induction pu with
  | nil => rfl
  | cons p rest ih =>
      simp only [List.flatMap_cons, List.length_append, ih, markersPU_length,
        List.countP_cons]
      cases h : qualifies p
      · simp [h]
      · simp [h]
        omega

theorem flatMap_markersHS_length (hs : List Ptcl) :
    (hs.flatMap markersHS).length
      = hs.countP (fun q => qualifies q && !decide (q.charge = 0))
        + 2 * hs.countP (fun q => qualifies q && decide (q.charge = 0)) := by
  induction hs with
  | nil => rfl
  | cons p rest ih =>
      simp only [List.flatMap_cons, List.length_append, ih, markersHS_length,
        List.countP_cons]
      cases h : qualifies p
      · simp [h]
      · by_cases h0 : p.charge = 0 <;> simp [h, h0] <;> omega

/-! ### Ghost-grid and retagging lemmas -/

theorem sum_map_const_nat {α : Type} (l : List α) (n : ℕ) :
    (l.map fun _ => n).sum = l.length * n := by
  induction l with
  | nil => simp
  | cons x xs ih =>
      simp [ih]
      ring

theorem sourceGhosts_eq_spec (ax : GridAxes) :
    sourceGhosts ax = specGhostList ax := by
  simp only [sourceGhosts, specGhostList, cellCenters, List.flatMap_map,
    List.map_flatMap, List.map_map, Function.comp]
  rfl

theorem length_sourceGhosts (ax : GridAxes) :
    (sourceGhosts ax).length = ax.nx * ax.ny := by
  simp [sourceGhosts, Function.comp_def, sum_map_const_nat]

theorem mem_sourceGhosts {g : PJet} {ax : GridAxes}
    (h : g ∈ sourceGhosts ax) :
    g.pt = pTghost ∧ g.tag = Provenance.ghost := by
  simp only [sourceGhosts, List.mem_flatMap, List.mem_map, List.mem_range] at h
  obtain ⟨iy, _, ip, _, rfl⟩ := h
  exact ⟨rfl, rfl⟩

theorem eventPool_filter_ghost (ax : GridAxes) (inp : EvIn) :
    (eventPool ax inp).filter (fun c => decide (c.tag = Provenance.ghost))
      = sourceGhosts ax := by
  simp only [eventPool, puPool, List.filter_append]
  rw [List.filter_map, List.filter_map]
  have h1 : ((fun c : PJet => decide (c.tag = Provenance.ghost))
      ∘ toPJ Provenance.hardScatter) = fun _ => false := by
    funext p; simp [toPJ]
  have h2 : ((fun c : PJet => decide (c.tag = Provenance.ghost))
      ∘ toPJ Provenance.pileup) = fun _ => false := by
    funext p; simp [toPJ]
  rw [h1, h2]
  simp only [List.filter_false, List.map_nil, List.nil_append, List.append_nil]
  exact List.filter_eq_self.mpr fun g hg => by
    simp [(mem_sourceGhosts hg).2]

theorem fillsOf_retag (f : Provenance → Provenance) (jets : List Jet) :
    fillsOf (retagJets f jets) = fillsOf jets := by
  simp only [retagJets, fillsOf, List.flatMap_map]
  congr 1
  funext j
  obtain ⟨jpt, jcs⟩ := j
  show ((jcs.map (fun c => { c with tag := f c.tag })).filter
      (fun c => !decide (ghostThresh < c.pt))).map
      (fun c => ({ rap := c.rap, phi := c.phi, w := jpt } : FillRec)) = _
  rw [List.filter_map, List.map_map]
  rfl

theorem fillsOf_eq_le_filter (jets : List Jet) :
    fillsOf jets
      = jets.flatMap fun j =>
          (j.constituents.filter fun c => decide (c.pt ≤ ghostThresh)).map
            fun c => { rap := c.rap, phi := c.phi, w := j.pt } := by
  simp only [fillsOf]
  congr 1
  funext j
  congr 1
  apply List.filter_congr
  intro c _
  by_cases h : ghostThresh < c.pt
  · simp [h, not_le.mpr h]
  · simp [h, not_lt.mp h]

/-! ### Claim theorems -/

/-- C1 (corrected): within a valid event, the per-algorithm pages are
emitted in the iteration order of the `std::map` keyed by the descriptive
labels, which is ascending `strcmp` order of the labels — a sorted
permutation of the configured insertion list, not the insertion order
itself. -/
theorem C1_pages_in_map_key_order (ax : GridAxes) (defs : List (String × AlgDef))
    (i : ℕ) (inp : EvIn) (ps : List Ptcl) (h1 : inp.hs = some ps)
    (h2 : (vhOf ps).length = 2) (hnd : (defs.map Prod.fst).Nodup) :
    pageLabels (perEvent ax defs i inp) = (mapOfList defs).map Prod.fst
      ∧ entriesSorted (mapOfList defs)
      ∧ (mapOfList defs).Perm defs := by
  refine ⟨?_, mapOfList_sorted defs, mapOfList_perm hnd⟩
  simp [perEvent, h1, h2, pageLabels_algSteps]

/-- Witness for C1 at the program's configuration and a concrete valid
event. -/
theorem C1_pages_in_map_key_order_witness :
    pageLabels (perEvent tinyAx jetDefsProgram 0 vInp)
        = (mapOfList jetDefsProgram).map Prod.fst
      ∧ entriesSorted (mapOfList jetDefsProgram)
      ∧ (mapOfList jetDefsProgram).Perm jetDefsProgram :=
  C1_pages_in_map_key_order tinyAx jetDefsProgram 0 vInp [resP, resP] rfl
    (by decide) (by decide)

/-- C1 counterexample: with the program's two configured algorithms
(anti-kt inserted first, kt second) the page order of a valid event is
[kt, anti-kt] — not the insertion order. -/
theorem C1_counterexample :
    pageLabels (perEvent tinyAx jetDefsProgram 0 vInp) = [labelKT, labelAK]
      ∧ jetDefsProgram.map Prod.fst = [labelAK, labelKT]
      ∧ pageLabels (perEvent tinyAx jetDefsProgram 0 vInp)
          ≠ jetDefsProgram.map Prod.fst :=
  ⟨by decide, by decide, by decide⟩

/-- C2 (corrected): `first` is reset at every event-loop iteration, so the
legend box is drawn on the first algorithm page of every valid event: a run
draws as many legends as it has valid events, and within one valid event
the legend appears exactly once, on the first page. -/
theorem C2_legend_once_per_event (ax : GridAxes) (defs : List (String × AlgDef))
    (hdefs : defs ≠ []) (i : ℕ) (inps : List EvIn) (inp : EvIn) (ps : List Ptcl)
    (h1 : inp.hs = some ps) (h2 : (vhOf ps).length = 2) :
    legendCount (runTrace ax defs i inps) = countValid inps
      ∧ ∃ lab pool rest, perEvent ax defs i inp
          = Eff.clusterCall i lab pool :: Eff.legendBox i :: Eff.page i lab :: rest
        ∧ legendCount rest = 0 := by
  refine ⟨legendCount_runTrace ax hdefs inps i, ?_⟩
  obtain ⟨⟨lab, d⟩, ds, hm⟩ : ∃ hd tl, mapOfList defs = hd :: tl := by
    cases hm : mapOfList defs with
    | nil => exact absurd hm (mapOfList_ne_nil hdefs)
    | cons a l => exact ⟨a, l, rfl⟩
  refine ⟨lab, eventPool ax inp, algSteps i (eventPool ax inp) ds false,
    ?_, legendCount_algSteps_false i _ ds⟩
  simp [perEvent, h1, h2, hm, algSteps]

/-- Witness for C2: a run of two valid events with the program's two
algorithms. -/
theorem C2_legend_once_per_event_witness :
    legendCount (runTrace tinyAx jetDefsProgram 0 [vInp, vInp])
        = countValid [vInp, vInp]
      ∧ ∃ lab pool rest, perEvent tinyAx jetDefsProgram 0 vInp
          = Eff.clusterCall 0 lab pool :: Eff.legendBox 0 :: Eff.page 0 lab :: rest
        ∧ legendCount rest = 0 :=
  C2_legend_once_per_event tinyAx jetDefsProgram (by decide) 0 [vInp, vInp]
    vInp [resP, resP] rfl (by decide)

/-- C2 counterexample: a run with two valid events draws the legend twice,
not exactly once on the first page of the run. -/
theorem C2_counterexample :
    legendCount (runTrace tinyAx jetDefsProgram 0 [vInp, vInp]) = 2
      ∧ legendCount (runTrace tinyAx jetDefsProgram 0 [vInp, vInp]) ≠ 1 :=
  ⟨by decide, by decide⟩

/-- C3 (corrected): `TH2D::Fill` accumulates, so a cell claimed by several
jets ends at the sum of their `pt` values (each jet contributing once per
ghost constituent in the cell), not at the value of the last writer. -/
theorem C3_cell_accumulates_sum (ax : GridAxes) (jets : List Jet)
    (cell : ℤ × ℤ) :
    binContent ax (fillsOf jets) cell
      = (jets.map fun j =>
          ((j.constituents.filter fun c =>
              (!decide (ghostThresh < c.pt)
                && decide (cellOf ax c.rap c.phi = cell))).length : ℚ)
            * j.pt).sum := by
  induction jets with
  | nil => rfl
  | cons j js ih =>
      rw [fillsOf_cons, binContent_append, binContent_jet, ih, List.map_cons,
        List.sum_cons]

/-- C3 counterexample: two jets (`pt` 30 and 40) each owning a ghost at
the same coordinate leave 70 in the shared cell, not the last writer's
40. -/
theorem C3_counterexample :
    binContent tinyAx (fillsOf [jA, jB]) (cellOf tinyAx 0 0) = 70
      ∧ (jB.pt : ℚ) = 40
      ∧ binContent tinyAx (fillsOf [jA, jB]) (cellOf tinyAx 0 0) ≠ jB.pt := by
  refine ⟨?_, rfl, ?_⟩
  · norm_num [binContent, cellFills, fillsOf, cellOf, binIdx, ghostThresh,
      pTghost, jA, jB, gC, tinyAx, List.filter, List.flatMap]
  · norm_num [binContent, cellFills, fillsOf, cellOf, binIdx, ghostThresh,
      pTghost, jA, jB, gC, tinyAx, List.filter, List.flatMap]

/-- C4 (corrected): under the amended precondition that every non-ghost
constituent carries `pt` above the numeric ghost threshold, the reused
histogram is reset before the jet set is applied (the previous iteration's
state is irrelevant), every deposit comes from a ghost constituent, an
unclaimed cell is zero, and a cell with a single ghost deposit holds
exactly the owning jet's `pt`. -/
theorem C4_flow_invariant (ax : GridAxes) (prev : List FillRec)
    (jets : List Jet) (cell : ℤ × ℤ)
    (hreal : ∀ j ∈ jets, ∀ c ∈ j.constituents,
      c.tag ≠ Provenance.ghost → ghostThresh < c.pt) :
    binContent ax (algGrid prev jets) cell = binContent ax (fillsOf jets) cell
      ∧ (∀ f ∈ fillsOf jets, ∃ j ∈ jets, ∃ c ∈ j.constituents,
          c.tag = Provenance.ghost ∧ c.pt ≤ ghostThresh
            ∧ f = { rap := c.rap, phi := c.phi, w := j.pt })
      ∧ (cellFills ax (fillsOf jets) cell = []
          → binContent ax (fillsOf jets) cell = 0)
      ∧ (∀ f, cellFills ax (fillsOf jets) cell = [f]
          → binContent ax (fillsOf jets) cell = f.w
            ∧ ∃ j ∈ jets, ∃ c ∈ j.constituents,
                c.tag = Provenance.ghost ∧ cellOf ax c.rap c.phi = cell
                  ∧ f.w = j.pt) := by
  have honly : ∀ f ∈ fillsOf jets, ∃ j ∈ jets, ∃ c ∈ j.constituents,
      c.tag = Provenance.ghost ∧ c.pt ≤ ghostThresh
        ∧ f = { rap := c.rap, phi := c.phi, w := j.pt } := by
    intro f hf
    obtain ⟨j, hj, c, hc, hnl, hfe⟩ := mem_fillsOf hf
    by_cases htag : c.tag = Provenance.ghost
    · exact ⟨j, hj, c, hc, htag, le_of_not_lt hnl, hfe⟩
    · exact absurd (hreal j hj c hc htag) hnl
  refine ⟨by simp [algGrid, resetGrid], honly, ?_, ?_⟩
  · intro h
    rw [binContent_eq_sum_cellFills, h]
    rfl
  · intro f h
    refine ⟨by rw [binContent_eq_sum_cellFills, h]; simp, ?_⟩
    have hfmem : f ∈ cellFills ax (fillsOf jets) cell := by simp [h]
    obtain ⟨hfin, hcell⟩ := mem_cellFills hfmem
    obtain ⟨j, hj, c, hc, htag, _, hfe⟩ := honly f hfin
    refine ⟨j, hj, c, hc, htag, ?_, by rw [hfe]⟩
    rw [hfe] at hcell
    exact hcell

/-- Witness for C4: one jet of `pt = 50` owning ghosts at three cell
centers of the small grid — a claimed cell reads 50 and an unclaimed cell
reads 0. -/
theorem C4_flow_invariant_witness :
    binContent tinyAx (fillsOf [wJet]) (cellOf tinyAx (-2) (-3/2)) = 50
      ∧ binContent tinyAx (fillsOf [wJet]) (0, 0) = 0 := by
  have h := C4_flow_invariant tinyAx [] [wJet] (cellOf tinyAx (-2) (-3/2))
    (by decide)
  have h0 := C4_flow_invariant tinyAx [] [wJet] (0, 0) (by decide)
  constructor
  · exact (h.2.2.2 ⟨-2, -3/2, 50⟩ (by
      norm_num [cellFills, fillsOf, cellOf, binIdx, ghostThresh, pTghost,
        wJet, wG1, wG2, wG3, tinyAx, List.filter, List.flatMap])).1
  · exact h0.2.2.1 (by
      norm_num [cellFills, fillsOf, cellOf, binIdx, ghostThresh, pTghost,
        wJet, wG1, wG2, wG3, tinyAx, List.filter, List.flatMap])

/-- C4 counterexample: a jet set without any ghost-tagged constituent but
with a real (hard-scatter) constituent of `pt = 0` still deposits: the cell
at its coordinate ends nonzero although no jet owns a ghost there, refuting
the claim that only ghost probes cause deposits. -/
theorem C4_counterexample :
    ((cJets.all fun j => j.constituents.all
        fun c => !decide (c.tag = Provenance.ghost)) = true)
      ∧ binContent tinyAx (fillsOf cJets) (cellOf tinyAx 0 0) = 50
      ∧ binContent tinyAx (fillsOf cJets) (cellOf tinyAx 0 0) ≠ 0 := by
  refine ⟨by decide, ?_, ?_⟩
  · norm_num [binContent, cellFills, fillsOf, cellOf, binIdx, ghostThresh,
      cJets, realLow, tinyAx, List.filter, List.flatMap]
  · norm_num [binContent, cellFills, fillsOf, cellOf, binIdx, ghostThresh,
      cJets, realLow, tinyAx, List.filter, List.flatMap]

/-- C5 (confirmed): an event whose `VH` resonance count differs from 2
produces no effects at all — no clustering call, no legend, no page — and
the surrounding event loop continues unchanged with the following
iterations. -/
theorem C5_invalid_event_skipped (ax : GridAxes) (defs : List (String × AlgDef))
    (i : ℕ) (inp : EvIn) (ps : List Ptcl) (h1 : inp.hs = some ps)
    (h2 : (vhOf ps).length ≠ 2) :
    (∀ k, perEvent ax defs k inp = [])
      ∧ ∀ (pre post : List EvIn),
          runTrace ax defs i (pre ++ inp :: post)
            = runTrace ax defs i pre
              ++ runTrace ax defs (i + pre.length + 1) post := by
  have hpe : ∀ k, perEvent ax defs k inp = [] := by
    intro k
    simp [perEvent, h1, h2]
  refine ⟨hpe, fun pre post => ?_⟩
  rw [runTrace_append]
  simp [runTrace, hpe, Nat.add_assoc]

/-- Witness for C5 at a concrete one-resonance event between two valid
events. -/
theorem C5_invalid_event_skipped_witness :
    perEvent tinyAx jetDefsProgram 0 badInp = []
      ∧ runTrace tinyAx jetDefsProgram 0 ([vInp] ++ badInp :: [vInp])
          = runTrace tinyAx jetDefsProgram 0 [vInp]
            ++ runTrace tinyAx jetDefsProgram (0 + List.length [vInp] + 1) [vInp] := by
  have h := C5_invalid_event_skipped tinyAx jetDefsProgram 0 badInp [resP]
    rfl (by decide)
  exact ⟨h.1 0, h.2 [vInp] [vInp]⟩

/-- C6 (confirmed): a failed pileup draw (`pythiaPU.next()` returning
false) contributes no particles while the remaining draws still run: the
pileup pool is exactly the concatenated final-state particles of the
successful draws, and with `k` failures among `n` draws exactly `n - k`
interactions contribute. -/
theorem C6_pileup_draw_failures (draws d1 d2 : List (Option (List Ptcl))) :
    puFinals draws
        = draws.reduceOption.flatMap (fun ps => ps.filter fun p => p.isFinal)
      ∧ puFinals (d1 ++ none :: d2) = puFinals d1 ++ puFinals d2
      ∧ draws.reduceOption.length + draws.count none = draws.length :=
  ⟨puFinals_eq_reduceOption draws,
    by rw [puFinals_none, puFinals_append],
    reduceOption_length_add_count draws⟩

/-- C7 (corrected): one marker is drawn per qualifying pileup particle and
per qualifying charged hard-scatter particle, but a qualifying *neutral*
hard-scatter particle receives two markers (square plus cross); qualifying
means `|y| < yMax` and `pT > pTmin_hadron`, and style/colour follow
provenance and charge sign. -/
theorem C7_marker_rules (pu hs : List Ptcl) (p : Ptcl) :
    (pageMarkers pu hs).length
        = pu.countP qualifies
          + hs.countP (fun q => qualifies q && !decide (q.charge = 0))
          + 2 * hs.countP (fun q => qualifies q && decide (q.charge = 0))
      ∧ (markersPU p).length = (if qualifies p then 1 else 0)
      ∧ (markersHS p).length
          = (if qualifies p then (if p.charge = 0 then 2 else 1) else 0)
      ∧ ((markersPU p).all fun m =>
          decide (m.col = colPU)
            && decide (m.style = if p.charge = 0 then 25 else 24)) = true
      ∧ ((markersHS p).all fun m =>
          decide (m.col = if 0 < p.charge then colPos
            else if p.charge < 0 then colNeg else colNeut)) = true := by
  refine ⟨?_, markersPU_length p, markersHS_length p, ?_, ?_⟩
  · show (pu.flatMap markersPU ++ hs.flatMap markersHS).length = _
    rw [List.length_append, flatMap_markersPU_length, flatMap_markersHS_length]
    omega
  · unfold markersPU
    cases h : qualifies p <;> simp [h]
  · unfold markersHS
    cases h : qualifies p
    · simp [h]
    · simp only [h, if_true]
      by_cases h1 : 0 < p.charge
      · simp [if_pos h1]
      · by_cases h2 : p.charge < 0
        · simp [if_neg h1, if_pos h2]
        · simp [if_neg h1, if_neg h2]

/-- C7 counterexample: a qualifying neutral hard-scatter particle gets two
markers, not exactly one. -/
theorem C7_counterexample :
    qualifies neutP = true
      ∧ (markersHS neutP).length = 2
      ∧ (markersHS neutP).length ≠ 1 :=
  ⟨by decide, by decide, by decide⟩

/-- C8 (confirmed): within one event every clustering call receives the
identical particle pool, built once before the algorithm loop: the pools
passed to the clustering engine are `(number of configured algorithms)`
copies of the event's pool for a valid event, and none otherwise. -/
theorem C8_shared_pool (ax : GridAxes) (defs : List (String × AlgDef)) (i : ℕ)
    (inp : EvIn) :
    clusterPools (perEvent ax defs i inp)
      = if validEv inp
        then List.replicate (mapOfList defs).length (eventPool ax inp)
        else [] := by
  cases h : inp.hs with
  | none => simp [perEvent, validEv, h, clusterPools]
  | some ps =>
      by_cases h2 : (vhOf ps).length = 2
      · simp [perEvent, validEv, h, h2, clusterPools_algSteps]
      · simp [perEvent, validEv, h, h2, clusterPools]

/-- C9 (confirmed): the ghost-probe list is the pure function of the grid
parameters described by the spec — one probe per grid-cell center, all with
the same fixed negligible `pt` — and every event's pool carries exactly
this same ordered probe list. -/
theorem C9_ghost_grid (ax : GridAxes) (inp : EvIn) :
    sourceGhosts ax = specGhostList ax
      ∧ (sourceGhosts ax).length = ax.nx * ax.ny
      ∧ ((sourceGhosts ax).all fun g =>
          decide (g.pt = pTghost) && decide (g.tag = Provenance.ghost)) = true
      ∧ (eventPool ax inp).filter (fun c => decide (c.tag = Provenance.ghost))
          = sourceGhosts ax := by
  refine ⟨sourceGhosts_eq_spec ax, length_sourceGhosts ax, ?_,
    eventPool_filter_ghost ax inp⟩
  rw [List.all_eq_true]
  intro g hg
  obtain ⟨hpt, htag⟩ := mem_sourceGhosts hg
  simp [hpt, htag]

/-- C10 (confirmed): the flow-accumulation loop classifies a constituent
as a ghost solely by the numeric test `pt ≤ 1e-50`: the deposits are
invariant under arbitrary retagging of provenance, equal the
`pt ≤ 1e-50`-filtered deposits, and a hard-scatter-tagged particle with
`pt` at the threshold is deposited as if it were a ghost. -/
theorem C10_ghost_test_is_numeric (f : Provenance → Provenance)
    (jets : List Jet) :
    fillsOf (retagJets f jets) = fillsOf jets
      ∧ fillsOf jets
          = jets.flatMap (fun j =>
              (j.constituents.filter fun c => decide (c.pt ≤ ghostThresh)).map
                fun c => { rap := c.rap, phi := c.phi, w := j.pt })
      ∧ fillsOf [⟨77, [⟨ghostThresh, 1, 1, Provenance.hardScatter⟩]⟩]
          = [⟨1, 1, 77⟩] :=
  ⟨fillsOf_retag f jets, fillsOf_eq_le_filter jets,
    by norm_num [fillsOf, ghostThresh, List.filter, List.flatMap]⟩

end JetVis
